import Mathlib

/-!
Verification of the LPnDG-LLM planning pipeline.

This file shallowly embeds the core of the repository:
 - `src/graph_generator.py` : dependency-edge parsing and the acyclic-graph
   generation loop (the LLM oracle is modelled as a per-attempt response
   function; the regex match step is modelled by the resulting list of
   1-based index pairs, `none` standing for a response without a
   "Dependencies:" section);
 - `src/task_allocator.py`  : frontier extraction, the weight matrix, and
   the decoding of the LP solver's solution into a robot-to-skill
   assignment (the external `scipy.optimize.linprog` call is modelled by an
   `Option`-valued solution matrix, with feasibility / integrality /
   optimality of that solution stated as explicit predicates that mirror
   the constraints the code builds);
 - `main.py`                : the plan driver loop, with Python's
   potentially infinite `while` modelled by a fuel parameter (fuel
   exhaustion marking non-termination within that bound) and the
   user-visible prints recorded in an explicit output structure.

Graphs mirror `networkx.DiGraph` as insertion-ordered duplicate-free node
and edge lists.  Python `dict` assignment is modelled by an association
list whose insert overwrites an existing key in place and otherwise
appends, matching dict key-order semantics.
-/

namespace LPnDG

/-- Python's `pat in s` substring test on strings. -/
def strContains (s pat : String) : Bool :=
  (List.range (s.toList.length + 1)).any (fun i => pat.toList.isPrefixOf (s.toList.drop i))

/-- A directed graph in the style of `networkx.DiGraph`: insertion-ordered
node list and edge list, both duplicate-free by construction. -/
structure Graph where
  nodes : List String
  edges : List (String × String)
deriving DecidableEq, Repr

/-- `nx.DiGraph()` -/
def emptyGraph : Graph := ⟨[], []⟩

/-- `graph.in_degree()` for a single node: the number of stored edges whose
target is `n`. -/
def inDegree (g : Graph) (n : String) : Nat :=
  (g.edges.filter (fun e => e.2 == n)).length

/-- `get_executable_skills` (src/task_allocator.py): every node of the
graph whose in-degree is 0, in node order.  A pure function of the graph. -/
def get_executable_skills (g : Graph) : List String :=
  g.nodes.filter (fun n => inDegree g n == 0)

/-- `graph.remove_nodes_from(ns)`: removing a node also removes every edge
incident to it. -/
def removeNodesFrom (g : Graph) (ns : List String) : Graph :=
  ⟨g.nodes.filter (fun n => decide (¬ n ∈ ns)),
   g.edges.filter (fun e => decide (¬ e.1 ∈ ns ∧ ¬ e.2 ∈ ns))⟩

/-- `graph.add_node` semantics of networkx: adding an existing node is a
no-op, a new node is appended. -/
def addNode (g : Graph) (n : String) : Graph :=
  if n ∈ g.nodes then g else ⟨g.nodes ++ [n], g.edges⟩

/-- `graph.add_nodes_from` -/
def addNodesFrom (g : Graph) (ns : List String) : Graph :=
  ns.foldl addNode g

/-- `graph.add_edge` semantics of networkx: missing endpoints are added as
nodes; a duplicate edge is a no-op. -/
def addEdge (g : Graph) (e : String × String) : Graph :=
  let g1 := addNode (addNode g e.1) e.2
  if e ∈ g1.edges then g1 else ⟨g1.nodes, g1.edges ++ [e]⟩

/-- `graph.add_edges_from` -/
def addEdgesFrom (g : Graph) (es : List (String × String)) : Graph :=
  es.foldl addEdge g

/-- One fuelled pass of Kahn's elimination: repeatedly strip the in-degree-0
frontier; a graph is acyclic exactly when this empties it. -/
def kahnElim : Nat → Graph → Bool
  | 0, g => g.nodes.isEmpty
  | fuel + 1, g =>
    if g.nodes.isEmpty then true
    else
      let f := get_executable_skills g
      if f.isEmpty then false
      else kahnElim fuel (removeNodesFrom g f)

/-- `nx.is_directed_acyclic_graph`, embedded as Kahn's algorithm with fuel
equal to the node count (each round of a cycle-free graph removes at least
one node, so this fuel is always sufficient). -/
def is_directed_acyclic_graph (g : Graph) : Bool :=
  kahnElim g.nodes.length g

/-- Well-formedness maintained by every graph the code builds: nodes are
duplicate-free and every edge endpoint is a node. -/
def WF (g : Graph) : Prop :=
  g.nodes.Nodup ∧ ∀ e ∈ g.edges, e.1 ∈ g.nodes ∧ e.2 ∈ g.nodes

/-- `ord` is a topological order of `g`: a permutation of the nodes along
which every edge points forward. -/
def TopoOrdered (ord : List String) (g : Graph) : Prop :=
  ord.Perm g.nodes ∧ ∀ e ∈ g.edges, [e.1, e.2].Sublist ord

/-- `g` is a DAG in the classical sense: some topological order exists. -/
def TopoOrderable (g : Graph) : Prop :=
  ∃ ord, TopoOrdered ord g

/-! ## Dependency-edge parsing and graph generation (src/graph_generator.py) -/

/-- Python list indexing `l[i]` with negative-index wraparound; an index
outside the valid range raises (`Except.error`). -/
def pyGet (l : List String) (i : Int) : Except Unit String :=
  if 0 ≤ i then
    if h : i.toNat < l.length then .ok (l.get ⟨i.toNat, h⟩) else .error ()
  else
    if h : (0 ≤ (l.length : Int) + i) ∧ ((l.length : Int) + i).toNat < l.length then
      .ok (l.get ⟨((l.length : Int) + i).toNat, h.2⟩)
    else .error ()

/-- The edge-accumulating loop of `parse_dependencies`: each regex match
`(p, q)` of `N -> M` is turned into the edge
`(skill_list[p - 1], skill_list[q - 1])` using Python indexing; the first
out-of-range index raises, aborting the whole parse. -/
def parseEdges (skill_list : List String) : List (Nat × Nat) → Except Unit (List (String × String))
  | [] => .ok []
  | pq :: rest => do
    let u ← pyGet skill_list ((pq.1 : Int) - 1)
    let v ← pyGet skill_list ((pq.2 : Int) - 1)
    let es ← parseEdges skill_list rest
    return (u, v) :: es

/-- `parse_dependencies` (src/graph_generator.py).  The regex scan of the
response text is modelled by its result: `none` when the text has no
"Dependencies:" section (the function then returns no edges), otherwise
the list of matched 1-based index pairs. -/
def parse_dependencies (skill_list : List String) (matchData : Option (List (Nat × Nat))) :
    Except Unit (List (String × String)) :=
  match matchData with
  | none => .ok []
  | some ms => parseEdges skill_list ms

/-- One oracle response inside `generate_dependency_graph`'s `try` block:
`Except.error` models an exception raised by the generative-model call,
`Except.ok` carries the match data of the returned text. -/
abbrev OracleResponse := Except Unit (Option (List (Nat × Nat)))

/-- The `for attempt in range(3)` loop of `generate_dependency_graph`:
an oracle exception or a parse exception is caught by the surrounding
handler, which returns an empty graph at once; an acyclic graph is
returned; a cyclic one triggers the next attempt; exhausted attempts
fall through to an empty graph. -/
def genLoop (skill_list : List String) (resps : Nat → OracleResponse) : Nat → Nat → Graph
  | _, 0 => emptyGraph
  | k, n + 1 =>
    match resps k with
    | .error _ => emptyGraph
    | .ok ms =>
      match parse_dependencies skill_list ms with
      | .error _ => emptyGraph
      | .ok es =>
        let graph := addEdgesFrom (addNodesFrom emptyGraph skill_list) es
        if is_directed_acyclic_graph graph then graph
        else genLoop skill_list resps (k + 1) n

/-- `generate_dependency_graph` (src/graph_generator.py): empty skill list
short-circuits to an empty graph; otherwise up to 3 attempts are made. -/
def generate_dependency_graph (skill_list : List String) (resps : Nat → OracleResponse) : Graph :=
  if skill_list.isEmpty then emptyGraph else genLoop skill_list resps 0 3

/-! ## Task allocation (src/task_allocator.py) -/

/-- A robot record `{'name': ..., 'type': ...}`. -/
structure Robot where
  name : String
  type : String
deriving DecidableEq, Repr

/-- `calculate_weights` (src/task_allocator.py), as a function of the
per-entry simulated distance draw `cost` (the code's
`np.random.rand()`, one draw per matrix entry): an arm robot gets weight
`1 / (cost + 1e-6)` on a `pick_and_place` skill, a mobile robot on a
`transport` skill, every other pair gets weight 0.  Entries outside the
`len(robots) × len(skills)` shape are 0 (the numpy array has no such
entries). -/
def calculate_weights (robots : List Robot) (skills : List String) (cost : Nat → Nat → ℚ) :
    Nat → Nat → ℚ :=
  fun r s =>
    match robots[r]?, skills[s]? with
    | some robot, some skill =>
      if robot.type = "arm_robot" ∧ strContains skill "pick_and_place" = true then
        1 / (cost r s + 1 / 1000000)
      else if robot.type = "mobile_robot" ∧ strContains skill "transport" = true then
        1 / (cost r s + 1 / 1000000)
      else 0
    | _, _ => 0

/-- The compatibility test inside `calculate_weights`, as a predicate. -/
def compatible (robot : Robot) (skill : String) : Bool :=
  (robot.type == "arm_robot" && strContains skill "pick_and_place") ||
    (robot.type == "mobile_robot" && strContains skill "transport")

/-- `np.round` on a rational: round to the nearest integer, ties to even. -/
def pyRound (q : ℚ) : Int :=
  let f : Int := ⌊q⌋
  let r : ℚ := q - (f : ℚ)
  if 1 / 2 < r then f + 1
  else if r < 1 / 2 then f
  else if f % 2 == 0 then f else f + 1

/-- Decoding one robot row of the rounded solution matrix:
`np.where(assignment_matrix[r_idx, :] == 1)[0]` followed by taking the
first hit is the least column index whose rounded value is 1. -/
def decodeRow (x : Nat → Nat → ℚ) (S r : Nat) : Option Nat :=
  (List.range S).find? (fun s => pyRound (x r s) == 1)

/-- Python `dict` assignment `d[k] = v` on an association list: an
existing key keeps its position and gets the new value, a new key is
appended. -/
def dictInsert (l : List (String × String)) (k v : String) : List (String × String) :=
  if l.any (fun p => p.1 == k) then
    l.map (fun p => if p.1 == k then (k, v) else p)
  else l ++ [(k, v)]

/-- `solve_task_allocation` (src/task_allocator.py).  The external
`linprog` call is modelled by `lpResult`: `none` is an unsuccessful solve
(the code returns `{}` after a warning), `some x` is the solution vector
reshaped to `len(robots) × len(executable_skills)`.  The weight matrix the
code builds only feeds the LP objective, so it appears here solely through
the contract predicates below.  Each robot row is decoded to the first
column whose rounded entry equals 1 and written into the assignment dict
keyed by robot name (see `solve_task_allocation` below; this is its
`for r_idx in range(num_robots)` decode loop: rows decoding to a column
write into the assignment dict, rows with no rounded 1 are skipped). -/
def assignLoop (robots : List Robot) (skills : List String) (x : Nat → Nat → ℚ) :
    List Nat → List (String × String) → List (String × String)
  | [], acc => acc
  | r :: rest, acc =>
    match decodeRow x skills.length r with
    | some s =>
      assignLoop robots skills x rest
        (dictInsert acc ((robots[r]?.getD ⟨"", ""⟩).name) (skills[s]?.getD ""))
    | none => assignLoop robots skills x rest acc

/-- `solve_task_allocation`, body: the empty-frontier early return, the
unsuccessful-solve early return, and the row-by-row decode. -/
def solve_task_allocation (robots : List Robot) (executable_skills : List String)
    (lpResult : Option (Nat → Nat → ℚ)) : List (String × String) :=
  if executable_skills.length = 0 then []
  else
    match lpResult with
    | none => []
    | some x => assignLoop robots executable_skills x (List.range robots.length) []

/-- Feasibility for the assignment LP the code sets up: each robot row sums
to at most 1, each skill column sums to at most 1, and every variable lies
in `[0, 1]`. -/
def Feasible (R S : Nat) (x : Nat → Nat → ℚ) : Prop :=
  (∀ r, r < R → (∑ s ∈ Finset.range S, x r s) ≤ 1) ∧
  (∀ s, s < S → (∑ r ∈ Finset.range R, x r s) ≤ 1) ∧
  (∀ r s, r < R → s < S → 0 ≤ x r s ∧ x r s ≤ 1)

/-- The LP objective the code maximizes (it hands `linprog` the negated
weights): total weight of the chosen entries. -/
def objective (R S : Nat) (w x : Nat → Nat → ℚ) : ℚ :=
  ∑ r ∈ Finset.range R, ∑ s ∈ Finset.range S, w r s * x r s

/-- The solution is integral on the matrix shape (a vertex of the
assignment polytope, which is what an LP solver returns here). -/
def Integral (R S : Nat) (x : Nat → Nat → ℚ) : Prop :=
  ∀ r s, r < R → s < S → x r s = 0 ∨ x r s = 1

/-- The solver contract: a feasible solution maximizing the objective. -/
def OptimalFor (R S : Nat) (w x : Nat → Nat → ℚ) : Prop :=
  Feasible R S x ∧ ∀ y, Feasible R S y → objective R S w y ≤ objective R S w x

/-! ## The plan driver (main.py) -/

/-- Exit status of the `while graph.number_of_nodes() > 0` loop:
`complete` when the graph emptied, `integrityBreak` for the
`break` on an empty frontier with a non-empty graph, `outOfFuel` when the
loop is still running after `fuel` iterations (in particular, a loop that
never exits is `outOfFuel` for every fuel). -/
inductive RunResult where
  | complete
  | integrityBreak
  | outOfFuel
deriving DecidableEq, Repr

/-- The driver loop of `main_planner` (main.py).  `sols k ex` is the LP
solution `linprog` returns in round `k` on frontier `ex` (the random
weight draws are absorbed into the solver contract hypotheses).  An empty
assignment prints "Waiting..." and `continue`s with the graph unchanged;
otherwise the assigned skills are removed from the graph. -/
def driverLoop (robots : List Robot) (sols : Nat → List String → Option (Nat → Nat → ℚ)) :
    Graph → Nat → Nat → RunResult
  | g, _, 0 => if g.nodes.isEmpty then .complete else .outOfFuel
  | g, k, fuel + 1 =>
    if g.nodes.isEmpty then .complete
    else
      let ex := get_executable_skills g
      if ex.isEmpty then .integrityBreak
      else
        let assignments := solve_task_allocation robots ex (sols k ex)
        let completed := assignments.map Prod.snd
        if completed.isEmpty then driverLoop robots sols g (k + 1) fuel
        else driverLoop robots sols (removeNodesFrom g completed) (k + 1) fuel

/-- The user-visible outcome of one `main_planner` run: the Python return
value (always `None`) and which messages were printed.  `diverged` records
that the loop was still running when the fuel bound ran out. -/
structure PlannerOutput where
  retVal : Option Unit
  printedSkillAbort : Bool
  printedGraphAbort : Bool
  printedIntegrityError : Bool
  printedCompleteBanner : Bool
  diverged : Bool
deriving DecidableEq, Repr

/-- main.py lines 33-61: the loop plus the unconditional
`print("\n## 4. Planning Complete!")` that follows it — reached both on a
normal exit and after the integrity `break`. -/
def driverPhase (robots : List Robot) (sols : Nat → List String → Option (Nat → Nat → ℚ))
    (g : Graph) (fuel k : Nat) : PlannerOutput :=
  match driverLoop robots sols g k fuel with
  | .complete => ⟨none, false, false, false, true, false⟩
  | .integrityBreak => ⟨none, false, false, true, true, false⟩
  | .outOfFuel => ⟨none, false, false, false, false, true⟩

/-- `main_planner` (main.py).  The LLM-produced skill list is passed in as
`skill_list` (the skill generator is an external oracle); an empty skill
list or an empty generated graph aborts with a printed message before the
planning loop. -/
def main_planner (skill_list : List String) (robots : List Robot)
    (resps : Nat → OracleResponse)
    (sols : Nat → List String → Option (Nat → Nat → ℚ)) (fuel : Nat) : PlannerOutput :=
  if skill_list.isEmpty then ⟨none, true, false, false, false, false⟩
  else
    let graph := generate_dependency_graph skill_list resps
    if graph.nodes.isEmpty then ⟨none, false, true, false, false, false⟩
    else driverPhase robots sols graph fuel 0

/-! ## Concrete inputs used by witnesses and counterexamples -/

/-- A two-node cycle: the shape of graph the integrity branch of the
driver loop is meant to guard against. -/
def cycleGraph : Graph := ⟨["a", "b"], [("a", "b"), ("b", "a")]⟩

/-- A single arm robot. -/
def armBot : Robot := ⟨"Arm_Robot_1", "arm_robot"⟩

/-- A single manipulation skill (compatible with an arm robot). -/
def pickSkill : String := "pick_and_place(red block, blue block)"

/-- A single transport skill (incompatible with an arm robot). -/
def transportSkill : String := "transport(table)"

/-! ## Supporting lemmas -/

/-- Frontier membership: exactly the nodes of in-degree 0. -/
theorem mem_get_executable_skills (g : Graph) (n : String) :
    n ∈ get_executable_skills g ↔ n ∈ g.nodes ∧ inDegree g n = 0 := by
  simp [get_executable_skills, List.mem_filter]

@[simp]
theorem except_bind_error {e : Unit} (f : String → Except Unit (List (String × String))) :
    (Except.error e >>= f) = (Except.error e : Except Unit (List (String × String))) := rfl

@[simp]
theorem except_bind_ok {a : String} (f : String → Except Unit (List (String × String))) :
    (Except.ok a >>= f) = f a := rfl

@[simp]
theorem except_map_error {e : Unit} (f : List (String × String) → List (String × String)) :
    (f <$> (Except.error e : Except Unit (List (String × String)))) = Except.error e := rfl

@[simp]
theorem except_map_ok {a : List (String × String)} (f : List (String × String) → List (String × String)) :
    (f <$> (Except.ok a : Except Unit (List (String × String)))) = Except.ok (f a) := rfl

/-- An index at least the list length makes Python indexing raise. -/
theorem pyGet_error_of_ge (l : List String) (i : Int) (h : (l.length : Int) ≤ i) :
    pyGet l i = .error () := by
  have h0 : 0 ≤ i := le_trans (by positivity) h
  have hlen : ¬ i.toNat < l.length := by omega
  simp [pyGet, h0, hlen]

/-- A regex match whose 1-based index exceeds the skill-list length makes
the edge loop raise (Python `IndexError`), whichever edges precede it. -/
theorem parseEdges_error_of_over (skill_list : List String) (ms : List (Nat × Nat))
    (h : ∃ pq ∈ ms, skill_list.length < pq.1 ∨ skill_list.length < pq.2) :
    parseEdges skill_list ms = .error () := by
  induction ms with
  | nil => simp at h
  | cons pq rest ih =>
    rcases h with ⟨bad, hbad, hover⟩
    rcases List.mem_cons.mp hbad with heq | hmem
    · subst heq
      rcases hover with hu | hv
      · have : pyGet skill_list ((bad.1 : Int) - 1) = .error () :=
          pyGet_error_of_ge _ _ (by omega)
        simp [parseEdges, this]
      · have hv2 : pyGet skill_list ((bad.2 : Int) - 1) = .error () :=
          pyGet_error_of_ge _ _ (by omega)
        cases hu : pyGet skill_list ((bad.1 : Int) - 1) with
        | error e => simp [parseEdges, hu]
        | ok u => simp [parseEdges, hu, hv2]
    · have hrest : parseEdges skill_list rest = .error () := ih ⟨bad, hmem, hover⟩
      cases hu : pyGet skill_list ((pq.1 : Int) - 1) with
      | error e => simp [parseEdges, hu]
      | ok u =>
        cases hv : pyGet skill_list ((pq.2 : Int) - 1) with
        | error e => simp [parseEdges, hu, hv]
        | ok v => simp [parseEdges, hu, hv, hrest]

/-- In-range 1-based indices resolve to some skill without raising. -/
theorem pyGet_of_in_range (l : List String) (i : Nat) (h1 : 1 ≤ i) (h2 : i ≤ l.length) :
    ∃ u, pyGet l ((i : Int) - 1) = .ok u := by
  have h0 : 0 ≤ (i : Int) - 1 := by omega
  have hlt : ((i : Int) - 1).toNat < l.length := by omega
  refine ⟨l.get ⟨((i : Int) - 1).toNat, hlt⟩, ?_⟩
  simp only [pyGet, h0, if_pos, hlt, dif_pos]

/-- A self-loop match `(i, i)` with `i` in range survives parsing as a
self-loop edge: it is not discarded. -/
theorem parseEdges_keeps_self_loop (skill_list : List String) (ms : List (Nat × Nat))
    (es : List (String × String)) (i : Nat) (h1 : 1 ≤ i) (h2 : i ≤ skill_list.length)
    (hmem : (i, i) ∈ ms) (hok : parseEdges skill_list ms = .ok es) :
    ∃ u, (u, u) ∈ es := by
  induction ms generalizing es with
  | nil => simp at hmem
  | cons pq rest ih =>
    rcases List.mem_cons.mp hmem with heq | hmemr
    · rcases pyGet_of_in_range skill_list i h1 h2 with ⟨u, hu⟩
      rw [← heq] at hok
      cases hrest : parseEdges skill_list rest with
      | error e => simp [parseEdges, hu, hrest] at hok
      | ok es2 =>
        simp [parseEdges, hu, hrest] at hok
        exact ⟨u, by rw [← hok]; exact List.mem_cons_self _ _⟩
    · cases hu : pyGet skill_list ((pq.1 : Int) - 1) with
      | error e => simp [parseEdges, hu] at hok
      | ok u =>
        cases hv : pyGet skill_list ((pq.2 : Int) - 1) with
        | error e => simp [parseEdges, hu, hv] at hok
        | ok v =>
          cases hrest : parseEdges skill_list rest with
          | error e => simp [parseEdges, hu, hv, hrest] at hok
          | ok es2 =>
            simp [parseEdges, hu, hv, hrest] at hok
            rcases ih es2 hmemr hrest with ⟨w, hw⟩
            exact ⟨w, by rw [← hok]; exact List.mem_cons_of_mem _ hw⟩

/-- A parse exception inside the first attempt is caught by the builder's
handler, which returns an empty graph (the pipeline does not crash). -/
theorem generate_recovers_from_parse_error (skill_list : List String)
    (resps : Nat → OracleResponse) (ms : List (Nat × Nat))
    (hresp : resps 0 = .ok (some ms))
    (herr : parseEdges skill_list ms = .error ()) :
    generate_dependency_graph skill_list resps = emptyGraph := by
  by_cases hempty : skill_list.isEmpty
  · simp [generate_dependency_graph, hempty]
  · simp [generate_dependency_graph, hempty, genLoop, hresp, parse_dependencies, herr]

/-! ## Claim theorems -/

/-- C6: for every graph, the frontier extractor returns exactly the nodes
of in-degree 0, and on an empty graph it returns the empty list.  The
extractor is a plain function of the graph value in this embedding,
mirroring that the source builds a fresh list and never mutates the
graph. -/
theorem C6_frontier_extractor :
    (∀ g n, n ∈ get_executable_skills g ↔ n ∈ g.nodes ∧ inDegree g n = 0) ∧
    (∀ g, g.nodes = [] → get_executable_skills g = []) := by
  refine ⟨mem_get_executable_skills, ?_⟩
  intro g h
  simp [get_executable_skills, h]

/-- Witness for C6: the empty-graph clause at `emptyGraph`, and the
membership clause at a concrete two-node graph. -/
theorem C6_frontier_extractor_witness :
    get_executable_skills emptyGraph = [] ∧
    ("a" ∈ get_executable_skills (⟨["a", "b"], [("a", "b")]⟩ : Graph) ↔
      "a" ∈ (⟨["a", "b"], [("a", "b")]⟩ : Graph).nodes ∧
        inDegree ⟨["a", "b"], [("a", "b")]⟩ "a" = 0) :=
  ⟨C6_frontier_extractor.2 emptyGraph rfl, C6_frontier_extractor.1 _ _⟩

/-- C2 counterexample: the parser does not discard malformed edges.  A
1-based index above the range raises (`Except.error`, the embedded
`IndexError`); a self-loop `1 -> 1` is parsed into a self-loop edge; the
index 0 wraps around to the last skill instead of being discarded; and an
added self-loop reaches the acyclicity check, which then fails. -/
theorem C2_cex :
    parse_dependencies ["a", "b", "c"] (some [(4, 1)]) = .error () ∧
    parse_dependencies ["a", "b", "c"] (some [(1, 1)]) = .ok [("a", "a")] ∧
    parse_dependencies ["a", "b", "c"] (some [(0, 2)]) = .ok [("c", "b")] ∧
    ("a", "a") ∈ (addEdgesFrom (addNodesFrom emptyGraph ["a", "b", "c"]) [("a", "a")]).edges ∧
    is_directed_acyclic_graph (addEdgesFrom (addNodesFrom emptyGraph ["a", "b", "c"]) [("a", "a")]) = false := by
  exact ⟨rfl, rfl, rfl, by decide, rfl⟩

/-- C2 (amended): out-of-range edge indices are not discarded — an index
above `len(skills)` raises inside `parse_dependencies`; a self-loop match
in range is parsed into a self-loop edge (also not discarded; it is only
rejected later by the acyclicity check); the builder itself never
crashes: the raise is caught by its handler, which returns an empty
graph. -/
theorem C2_edge_validation :
    (∀ skills ms, (∃ pq ∈ ms, skills.length < pq.1 ∨ skills.length < pq.2) →
        parse_dependencies skills (some ms) = .error ()) ∧
    (∀ skills ms es i, 1 ≤ i → i ≤ skills.length → (i, i) ∈ ms →
        parse_dependencies skills (some ms) = .ok es → ∃ u, (u, u) ∈ es) ∧
    (∀ skills resps ms, resps 0 = .ok (some ms) → parseEdges skills ms = .error () →
        generate_dependency_graph skills resps = emptyGraph) := by
  refine ⟨?_, ?_, ?_⟩
  · intro skills ms h
    exact parseEdges_error_of_over skills ms h
  · intro skills ms es i h1 h2 hmem hok
    exact parseEdges_keeps_self_loop skills ms es i h1 h2 hmem hok
  · intro skills resps ms hresp herr
    exact generate_recovers_from_parse_error skills resps ms hresp herr

/-- Witness for C2 at concrete inputs: the over-range match `(4, 1)` on a
3-skill list raises; the self-loop `(1, 1)` on `["a"]` yields the edge
`("a", "a")`; and the builder turns a raising first attempt into an empty
graph. -/
theorem C2_edge_validation_witness :
    parse_dependencies ["a", "b", "c"] (some [(4, 1)]) = .error () ∧
    (∃ u, (u, u) ∈ [("a", "a")]) ∧
    generate_dependency_graph ["a"] (fun _ => .ok (some [(2, 1)])) = emptyGraph := by
  refine ⟨?_, ?_, ?_⟩
  · exact C2_edge_validation.1 ["a", "b", "c"] [(4, 1)] ⟨(4, 1), by decide, by decide⟩
  · exact C2_edge_validation.2.1 ["a"] [(1, 1)] [("a", "a")] 1 (by decide) (by decide)
      (by decide) rfl
  · exact C2_edge_validation.2.2 ["a"] _ [(2, 1)] rfl rfl

/-- C3 counterexample: an oracle error is NOT recovered by retry.  With an
oracle that raises on the first attempt and would answer an empty,
acyclic edge set on every later attempt, the builder returns the empty
graph at once instead of retrying and returning the one-node acyclic
graph those later answers would produce. -/
theorem C3_cex :
    generate_dependency_graph ["a"] (fun k => if k = 0 then .error () else .ok (some [])) =
      emptyGraph ∧
    (addEdgesFrom (addNodesFrom emptyGraph ["a"]) []).nodes = ["a"] ∧
    is_directed_acyclic_graph (addEdgesFrom (addNodesFrom emptyGraph ["a"]) []) = true := by
  exact ⟨rfl, rfl, rfl⟩

/-- C3 (amended): a detected cycle does trigger an independent retry,
bounded by 3 attempts in total, and exhausting the attempts yields an
empty graph that the Driver turns into an abort with a printed failure
message; but an oracle error is not retried — it makes the builder return
an empty graph immediately. -/
theorem C3_retry_policy :
    (∀ skills (resps : Nat → OracleResponse) ms0 es0 ms1 es1, skills ≠ [] →
        resps 0 = .ok ms0 → parse_dependencies skills ms0 = .ok es0 →
        is_directed_acyclic_graph (addEdgesFrom (addNodesFrom emptyGraph skills) es0) = false →
        resps 1 = .ok ms1 → parse_dependencies skills ms1 = .ok es1 →
        is_directed_acyclic_graph (addEdgesFrom (addNodesFrom emptyGraph skills) es1) = true →
        generate_dependency_graph skills resps =
          addEdgesFrom (addNodesFrom emptyGraph skills) es1) ∧
    (∀ skills (resps : Nat → OracleResponse), skills ≠ [] →
        (∀ k, k < 3 → ∃ ms es, resps k = .ok ms ∧ parse_dependencies skills ms = .ok es ∧
            is_directed_acyclic_graph (addEdgesFrom (addNodesFrom emptyGraph skills) es) = false) →
        generate_dependency_graph skills resps = emptyGraph) ∧
    (∀ skills (resps : Nat → OracleResponse) e, resps 0 = .error e →
        generate_dependency_graph skills resps = emptyGraph) ∧
    (∀ skills robots (resps : Nat → OracleResponse) sols fuel, skills ≠ [] →
        (generate_dependency_graph skills resps).nodes = [] →
        main_planner skills robots resps sols fuel = ⟨none, false, true, false, false, false⟩) := by
  refine ⟨?_, ?_, ?_, ?_⟩
  · intro skills resps ms0 es0 ms1 es1 hne h0 p0 d0 h1 p1 d1
    have hemp : skills.isEmpty = false := by
      cases skills with
      | nil => exact absurd rfl hne
      | cons a l => rfl
    simp [generate_dependency_graph, hemp, genLoop, h0, p0, d0, h1, p1, d1]
  · intro skills resps hne hcyc
    have hemp : skills.isEmpty = false := by
      cases skills with
      | nil => exact absurd rfl hne
      | cons a l => rfl
    obtain ⟨ms0, es0, h0, p0, d0⟩ := hcyc 0 (by omega)
    obtain ⟨ms1, es1, h1, p1, d1⟩ := hcyc 1 (by omega)
    obtain ⟨ms2, es2, h2, p2, d2⟩ := hcyc 2 (by omega)
    simp [generate_dependency_graph, hemp, genLoop, h0, p0, d0, h1, p1, d1, h2, p2, d2]
  · intro skills resps e h0
    by_cases hemp : skills.isEmpty
    · simp [generate_dependency_graph, hemp]
    · simp [generate_dependency_graph, hemp, genLoop, h0]
  · intro skills robots resps sols fuel hne hnodes
    have hemp : skills.isEmpty = false := by
      cases skills with
      | nil => exact absurd rfl hne
      | cons a l => rfl
    simp [main_planner, hemp, hnodes]

/-- Witness for C3: a cyclic first answer on `["a", "b"]` is retried and
the second, acyclic answer is returned; an always-erroring oracle makes
`main_planner` abort with the printed graph-failure message. -/
theorem C3_retry_policy_witness :
    generate_dependency_graph ["a", "b"]
        (fun k => if k = 0 then .ok (some [(1, 2), (2, 1)]) else .ok (some [(1, 2)])) =
      addEdgesFrom (addNodesFrom emptyGraph ["a", "b"]) [("a", "b")] ∧
    main_planner ["a"] [] (fun _ => .error ()) (fun _ _ => none) 3 =
      ⟨none, false, true, false, false, false⟩ := by
  constructor
  · exact C3_retry_policy.1 ["a", "b"] _ (some [(1, 2), (2, 1)]) [("a", "b"), ("b", "a")]
      (some [(1, 2)]) [("a", "b")] (by decide) rfl rfl rfl rfl rfl rfl
  · exact C3_retry_policy.2.2.2 ["a"] [] _ (fun _ _ => none) 3 (by decide)
      (by rw [C3_retry_policy.2.2.1 ["a"] _ () rfl]; rfl)

/-- C8 counterexample: on an empty skill list the Driver does not report
Complete — it aborts before building the graph, printing the
skill-generation failure message and leaving the completion banner
unprinted. -/
theorem C8_cex :
    main_planner [] [] (fun _ => .ok none) (fun _ _ => none) 3 =
      ⟨none, true, false, false, false, false⟩ ∧
    (⟨none, true, false, false, false, false⟩ : PlannerOutput).printedCompleteBanner = false := by
  exact ⟨rfl, rfl⟩

/-- C8 (amended): the Builder does return an empty DAG for an empty skill
list, but the Driver aborts with the "could not generate a skill list"
message before ever reaching the planning loop; it never reports
Complete. -/
theorem C8_empty_skill_list :
    (∀ resps, generate_dependency_graph [] resps = emptyGraph) ∧
    (∀ robots (resps : Nat → OracleResponse) sols fuel,
        main_planner [] robots resps sols fuel = ⟨none, true, false, false, false, false⟩) := by
  exact ⟨fun _ => rfl, fun _ _ _ _ => rfl⟩

/-! ## Rounding and decoding lemmas -/

theorem pyRound_one : pyRound 1 = 1 := by
  simp [pyRound]

theorem pyRound_zero : pyRound 0 = 0 := by
  simp [pyRound]

/-- On `[0, 1]`, `np.round` yields 1 exactly above one half (the tie at
one half rounds to the even integer 0). -/
theorem pyRound_eq_one_iff (q : ℚ) (h0 : 0 ≤ q) (h1 : q ≤ 1) :
    (pyRound q = 1 ↔ 1 / 2 < q) := by
  rcases eq_or_lt_of_le h1 with h | h
  · subst h
    simp [pyRound]
    norm_num
  · have hf : ⌊q⌋ = 0 := by
      rw [Int.floor_eq_zero_iff]
      exact ⟨h0, h⟩
    simp only [pyRound, hf, Int.cast_zero, sub_zero]
    rcases lt_trichotomy (1 / 2 : ℚ) q with hlt | heq | hgt
    · simp [hlt]
    · simp [← heq]
    · simp [hgt, not_lt.mpr (le_of_lt hgt), ne_of_lt hgt]

/-- `find?` over `range S` returns the least index satisfying the
predicate. -/
theorem find_range_least (p : Nat → Bool) (S s : Nat)
    (h : (List.range S).find? p = some s) :
    s < S ∧ p s = true ∧ ∀ t, t < s → p t = false := by
  induction S with
  | zero => simp [List.range_zero] at h
  | succ n ih =>
    rw [List.range_succ, List.find?_append] at h
    cases hn : (List.range n).find? p with
    | some s2 =>
      rw [hn] at h
      simp at h
      subst h
      obtain ⟨h1, h2, h3⟩ := ih hn
      exact ⟨by omega, h2, h3⟩
    | none =>
      rw [hn] at h
      simp at h
      rcases h with ⟨hp, hs⟩
      subst hs
      refine ⟨by omega, hp, ?_⟩
      intro t ht
      have := List.find?_eq_none.mp hn t (by simp [List.mem_range]; omega)
      simpa using this

/-- A decoded column is in range, rounds to 1, and is least such. -/
theorem decodeRow_spec (x : Nat → Nat → ℚ) (S r s : Nat)
    (h : decodeRow x S r = some s) :
    s < S ∧ pyRound (x r s) = 1 ∧ ∀ t, t < s → pyRound (x r t) ≠ 1 := by
  obtain ⟨h1, h2, h3⟩ := find_range_least _ S s h
  refine ⟨h1, by simpa using h2, ?_⟩
  intro t ht hc
  have := h3 t ht
  simp [hc] at this

/-- A column that rounds to 1 makes the row decode to something. -/
theorem decodeRow_isSome (x : Nat → Nat → ℚ) (S r s : Nat) (hs : s < S)
    (h : pyRound (x r s) = 1) : decodeRow x S r ≠ none := by
  intro hc
  have := List.find?_eq_none.mp hc s (by simpa [List.mem_range] using hs)
  simp [h] at this

/-! ## Assignment-dict lemmas -/

/-- Every entry of the dict after an insert is the inserted pair or an old
entry. -/
theorem mem_dictInsert (l : List (String × String)) (k v : String)
    (p : String × String) (h : p ∈ dictInsert l k v) : p = (k, v) ∨ p ∈ l := by
  unfold dictInsert at h
  by_cases hany : l.any (fun p => p.1 == k)
  · rw [if_pos hany] at h
    rcases List.mem_map.mp h with ⟨q, hq, hfq⟩
    by_cases hqk : q.1 == k
    · left
      rw [if_pos hqk] at hfq
      exact hfq.symm
    · right
      rw [if_neg hqk] at hfq
      exact hfq ▸ hq
  · rw [if_neg hany] at h
    rcases List.mem_append.mp h with hl | hr
    · exact Or.inr hl
    · exact Or.inl (by simpa using hr)

/-- Inserting never yields an empty dict. -/
theorem dictInsert_ne_nil (l : List (String × String)) (k v : String) :
    dictInsert l k v ≠ [] := by
  unfold dictInsert
  by_cases hany : l.any (fun p => p.1 == k)
  · rw [if_pos hany]
    intro hc
    rw [List.map_eq_nil_iff] at hc
    subst hc
    simp at hany
  · rw [if_neg hany]
    simp

/-- Inserting preserves duplicate-freedom of the keys. -/
theorem dictInsert_keys_nodup (l : List (String × String)) (k v : String)
    (h : (l.map Prod.fst).Nodup) : ((dictInsert l k v).map Prod.fst).Nodup := by
  unfold dictInsert
  by_cases hany : l.any (fun p => p.1 == k)
  · rw [if_pos hany, List.map_map]
    have : l.map (Prod.fst ∘ fun p => if p.1 == k then (k, v) else p) = l.map Prod.fst := by
      apply List.map_congr_left
      intro p _
      by_cases hpk : p.1 == k
      · simp only [Function.comp, if_pos hpk]
        exact (eq_of_beq hpk).symm
      · simp only [Function.comp, if_neg hpk]
    rw [this]
    exact h
  · rw [if_neg hany, List.map_append, List.nodup_append]
    refine ⟨h, by simp, ?_⟩
    intro a ha hb
    simp at hb
    subst hb
    rcases List.mem_map.mp ha with ⟨q, hq, hfq⟩
    rw [List.any_eq_true] at hany
    exact hany ⟨q, hq, by simp [hfq]⟩

/-- Every entry of the final assignment dict comes from a robot index in
the loop whose row decoded to a column. -/
theorem mem_assignLoop (robots : List Robot) (skills : List String) (x : Nat → Nat → ℚ)
    (rs : List Nat) (acc : List (String × String)) (p : String × String)
    (h : p ∈ assignLoop robots skills x rs acc) :
    p ∈ acc ∨ ∃ r ∈ rs, ∃ s, decodeRow x skills.length r = some s ∧
      p = ((robots[r]?.getD ⟨"", ""⟩).name, skills[s]?.getD "") := by
  induction rs generalizing acc with
  | nil => exact Or.inl h
  | cons r rest ih =>
    unfold assignLoop at h
    cases hdec : decodeRow x skills.length r with
    | some s =>
      rw [hdec] at h
      rcases ih _ h with hacc | ⟨r2, hr2, s2, hd2, hp2⟩
      · rcases mem_dictInsert _ _ _ _ hacc with hnew | hold
        · exact Or.inr ⟨r, List.mem_cons_self _ _, s, hdec, hnew⟩
        · exact Or.inl hold
      · exact Or.inr ⟨r2, List.mem_cons_of_mem _ hr2, s2, hd2, hp2⟩
    | none =>
      rw [hdec] at h
      rcases ih _ h with hacc | ⟨r2, hr2, s2, hd2, hp2⟩
      · exact Or.inl hacc
      · exact Or.inr ⟨r2, List.mem_cons_of_mem _ hr2, s2, hd2, hp2⟩

/-- The decode loop preserves duplicate-freedom of the dict keys. -/
theorem assignLoop_keys_nodup (robots : List Robot) (skills : List String)
    (x : Nat → Nat → ℚ) (rs : List Nat) (acc : List (String × String))
    (h : (acc.map Prod.fst).Nodup) :
    ((assignLoop robots skills x rs acc).map Prod.fst).Nodup := by
  induction rs generalizing acc with
  | nil => exact h
  | cons r rest ih =>
    unfold assignLoop
    cases hdec : decodeRow x skills.length r with
    | some s => exact ih _ (dictInsert_keys_nodup _ _ _ h)
    | none => exact ih _ h

/-- The decode loop returns a non-empty dict as soon as some row in it
decodes (or the accumulator is already non-empty). -/
theorem assignLoop_ne_nil (robots : List Robot) (skills : List String)
    (x : Nat → Nat → ℚ) (rs : List Nat) (acc : List (String × String))
    (h : acc ≠ [] ∨ ∃ r ∈ rs, decodeRow x skills.length r ≠ none) :
    assignLoop robots skills x rs acc ≠ [] := by
  induction rs generalizing acc with
  | nil =>
    rcases h with h | h
    · exact h
    · simp at h
  | cons r rest ih =>
    unfold assignLoop
    cases hdec : decodeRow x skills.length r with
    | some s => exact ih _ (Or.inl (dictInsert_ne_nil _ _ _))
    | none =>
      apply ih
      rcases h with h | ⟨r2, hr2, hd2⟩
      · exact Or.inl h
      · rcases List.mem_cons.mp hr2 with heq | hmem
        · subst heq
          exact absurd hdec hd2
        · exact Or.inr ⟨r2, hmem, hd2⟩

/-- Under the LP's column constraints, two distinct robot rows of a
feasible solution cannot both round to 1 in the same column, so decoded
columns are injective across rows. -/
theorem decode_col_injective (R S : Nat) (x : Nat → Nat → ℚ) (hx : Feasible R S x)
    (r1 r2 s : Nat) (h1 : r1 < R) (h2 : r2 < R)
    (hd1 : decodeRow x S r1 = some s) (hd2 : decodeRow x S r2 = some s) : r1 = r2 := by
  by_contra hne
  obtain ⟨hs, hp1, -⟩ := decodeRow_spec x S r1 s hd1
  obtain ⟨-, hp2, -⟩ := decodeRow_spec x S r2 s hd2
  obtain ⟨hrow, hcol, hbounds⟩ := hx
  have hb1 := hbounds r1 s h1 hs
  have hb2 := hbounds r2 s h2 hs
  have hq1 : 1 / 2 < x r1 s := (pyRound_eq_one_iff _ hb1.1 hb1.2).mp hp1
  have hq2 : 1 / 2 < x r2 s := (pyRound_eq_one_iff _ hb2.1 hb2.2).mp hp2
  have hsub : ({r1, r2} : Finset ℕ) ⊆ Finset.range R := by
    intro a ha
    simp only [Finset.mem_insert, Finset.mem_singleton] at ha
    rcases ha with h | h <;> (subst h; exact Finset.mem_range.mpr (by omega))
  have hle : ∑ r ∈ ({r1, r2} : Finset ℕ), x r s ≤ ∑ r ∈ Finset.range R, x r s := by
    apply Finset.sum_le_sum_of_subset_of_nonneg hsub
    intro i hi _
    exact (hbounds i s (Finset.mem_range.mp hi) hs).1
  rw [Finset.sum_pair hne] at hle
  have := hcol s hs
  linarith

/-- Rows decode the same under solutions with the same rounding. -/
theorem decodeRow_congr (x y : Nat → Nat → ℚ)
    (h : ∀ r s, pyRound (x r s) = pyRound (y r s)) (S r : Nat) :
    decodeRow x S r = decodeRow y S r := by
  unfold decodeRow
  congr 1
  funext s
  rw [h]

/-- The decode loop is a function of the rounded solution matrix. -/
theorem assignLoop_congr (robots : List Robot) (skills : List String)
    (x y : Nat → Nat → ℚ) (h : ∀ r s, pyRound (x r s) = pyRound (y r s))
    (rs : List Nat) (acc : List (String × String)) :
    assignLoop robots skills x rs acc = assignLoop robots skills y rs acc := by
  induction rs generalizing acc with
  | nil => rfl
  | cons r rest ih =>
    unfold assignLoop
    rw [decodeRow_congr x y h]
    cases decodeRow y skills.length r with
    | some s => exact ih _
    | none => exact ih _

/-- C9: each robot row is decoded to the lowest column index whose rounded
entry equals 1 (at most one skill per robot, since a row decodes to at
most one column and the dict holds at most one entry per robot name), and
the decoded assignment is a deterministic function of the rounded
solution matrix — no feasibility of the solver output is assumed. -/
theorem C9_decode_lowest_index :
    (∀ x S r s, decodeRow x S r = some s →
        s < S ∧ pyRound (x r s) = 1 ∧ ∀ t, t < s → pyRound (x r t) ≠ 1) ∧
    (∀ robots skills (x y : Nat → Nat → ℚ), (∀ r s, pyRound (x r s) = pyRound (y r s)) →
        solve_task_allocation robots skills (some x) =
          solve_task_allocation robots skills (some y)) ∧
    (∀ robots skills lp, ((solve_task_allocation robots skills lp).map Prod.fst).Nodup) := by
  refine ⟨decodeRow_spec, ?_, ?_⟩
  · intro robots skills x y h
    unfold solve_task_allocation
    by_cases hlen : skills.length = 0
    · simp [hlen]
    · simp only [hlen, if_neg, if_false]
      rw [assignLoop_congr robots skills x y h]
  · intro robots skills lp
    unfold solve_task_allocation
    by_cases hlen : skills.length = 0
    · simp [hlen]
    · cases lp with
      | none => simp [hlen]
      | some x =>
        simp only [hlen, if_neg, if_false]
        exact assignLoop_keys_nodup robots skills x _ [] (by simp)

/-- Witness for C9: a row whose entries round to 1 at columns 2 only is
decoded to column 2, with columns 0 and 1 rejected; and two solver
outputs with equal roundings (all-ones vs all-3/4) decode identically. -/
theorem C9_decode_lowest_index_witness :
    (2 < 3 ∧ pyRound ((fun (_ s : Nat) => if s = 2 then (1 : ℚ) else 0) 0 2) = 1 ∧
      ∀ t, t < 2 → pyRound ((fun (_ s : Nat) => if s = 2 then (1 : ℚ) else 0) 0 t) ≠ 1) ∧
    solve_task_allocation [armBot] [pickSkill] (some (fun _ _ => 1)) =
      solve_task_allocation [armBot] [pickSkill] (some (fun _ _ => 3 / 4)) := by
  constructor
  · exact C9_decode_lowest_index.1 (fun _ s => if s = 2 then (1 : ℚ) else 0) 3 0 2
      (by simp [decodeRow, List.find?, pyRound_zero, pyRound_one,
        show List.range 3 = [0, 1, 2] from rfl])
  · refine C9_decode_lowest_index.2.1 [armBot] [pickSkill] _ _ ?_
    intro r s
    have h34 : pyRound ((3 : ℚ) / 4) = 1 := by
      rw [pyRound_eq_one_iff] <;> norm_num
    simp [pyRound_one, h34]

/-- C10: the assignment dict is keyed by robot name, so of two robots
sharing a name the later one's decoded skill silently overwrites the
earlier one's: the result holds at most one entry per distinct name even
when the solution matrix assigned a skill to both rows. -/
theorem C10_duplicate_robot_names :
    (∀ robots skills lp, ((solve_task_allocation robots skills lp).map Prod.fst).Nodup) ∧
    decodeRow (fun r s => if r = s then (1 : ℚ) else 0) 2 0 = some 0 ∧
    decodeRow (fun r s => if r = s then (1 : ℚ) else 0) 2 1 = some 1 ∧
    solve_task_allocation [⟨"R", "arm_robot"⟩, ⟨"R", "arm_robot"⟩]
        ["pick_and_place(a, b)", "pick_and_place(c, d)"]
        (some (fun r s => if r = s then (1 : ℚ) else 0)) =
      [("R", "pick_and_place(c, d)")] := by
  refine ⟨?_, ?_, ?_, ?_⟩
  · intro robots skills lp
    unfold solve_task_allocation
    by_cases hlen : skills.length = 0
    · simp [hlen]
    · cases lp with
      | none => simp [hlen]
      | some x =>
        simp only [hlen, if_neg, if_false]
        exact assignLoop_keys_nodup robots skills x _ [] (by simp)
  · simp [decodeRow, List.find?, pyRound_zero, pyRound_one, show List.range 2 = [0, 1] from rfl]
  · simp [decodeRow, List.find?, pyRound_zero, pyRound_one, show List.range 2 = [0, 1] from rfl]
  · simp [solve_task_allocation, assignLoop, decodeRow, List.find?, pyRound_zero, pyRound_one,
      dictInsert, show List.range 2 = [0, 1] from rfl]

/-- The weight matrix is entrywise non-negative whenever the cost draws
are (compatible pairs get a positive inverse-cost weight, incompatible
pairs and out-of-shape entries get 0). -/
theorem calculate_weights_nonneg (robots : List Robot) (skills : List String)
    (cost : Nat → Nat → ℚ) (hc : ∀ r s, 0 ≤ cost r s) (r s : Nat) :
    0 ≤ calculate_weights robots skills cost r s := by
  unfold calculate_weights
  rcases hr : robots[r]? with - | robot
  · simp
  · rcases hs : skills[s]? with - | skill
    · simp
    · simp only []
      have hpos : (0 : ℚ) < cost r s + 1 / 1000000 := by
        have := hc r s
        positivity
      split_ifs with h1 h2
      · exact le_of_lt (by positivity)
      · exact le_of_lt (by positivity)
      · exact le_refl 0

/-- Every entry of a non-degenerate solve comes from a robot row that
decoded to an in-range column. -/
theorem mem_solve_task_allocation (robots : List Robot) (skills : List String)
    (x : Nat → Nat → ℚ) (p : String × String)
    (h : p ∈ solve_task_allocation robots skills (some x)) :
    ∃ r s, r < robots.length ∧ s < skills.length ∧
      decodeRow x skills.length r = some s ∧
      p = ((robots[r]?.getD ⟨"", ""⟩).name, skills[s]?.getD "") := by
  unfold solve_task_allocation at h
  by_cases hlen : skills.length = 0
  · simp [hlen] at h
  · simp only [hlen, if_neg, if_false] at h
    rcases mem_assignLoop robots skills x _ [] p h with hacc | ⟨r, hr, s, hd, hp⟩
    · simp at hacc
    · exact ⟨r, s, List.mem_range.mp hr, (decodeRow_spec x _ r s hd).1, hd, hp⟩

/-- The all-ones matrix is feasible for a 1-robot, 1-skill problem. -/
theorem feasible_ones_one_one : Feasible 1 1 (fun _ _ => 1) := by
  refine ⟨?_, ?_, ?_⟩
  · intro r _
    simp [Finset.sum_range_one]
  · intro s _
    simp [Finset.sum_range_one]
  · intro r s _ _
    norm_num

/-- The weight matrix of one arm robot against the one transport skill is
identically zero (the only pair is incompatible). -/
theorem weights_arm_transport_zero (r s : Nat) :
    calculate_weights [armBot] [transportSkill] (fun _ _ => 0) r s = 0 := by
  have hcontains : strContains "transport(table)" "pick_and_place" = false := by decide
  match r, s with
  | 0, 0 => simp [calculate_weights, armBot, transportSkill, hcontains]
  | 0, s + 1 => simp [calculate_weights]
  | r + 1, s => simp [calculate_weights]

/-- C1 counterexample: on one arm robot and the single frontier skill
`transport(table)` — an incompatible pair, weight exactly 0 — the
all-ones solver solution is feasible and optimal for the LP the code
builds, yet `solve_task_allocation` decodes it into selecting that
zero-weight pair: the decoder never filters on weight. -/
theorem C1_cex :
    Feasible 1 1 (fun _ _ => (1 : ℚ)) ∧
    OptimalFor 1 1 (calculate_weights [armBot] [transportSkill] (fun _ _ => 0))
      (fun _ _ => 1) ∧
    calculate_weights [armBot] [transportSkill] (fun _ _ => 0) 0 0 = 0 ∧
    solve_task_allocation [armBot] [transportSkill] (some (fun _ _ => 1)) =
      [("Arm_Robot_1", "transport(table)")] := by
  have hobj : ∀ y : Nat → Nat → ℚ,
      objective 1 1 (calculate_weights [armBot] [transportSkill] (fun _ _ => 0)) y = 0 := by
    intro y
    unfold objective
    apply Finset.sum_eq_zero
    intro r _
    apply Finset.sum_eq_zero
    intro s _
    rw [weights_arm_transport_zero r s, zero_mul]
  refine ⟨feasible_ones_one_one, ⟨feasible_ones_one_one, ?_⟩, weights_arm_transport_zero 0 0, ?_⟩
  · intro y hy
    rw [hobj y, hobj (fun _ _ => 1)]
  · simp [solve_task_allocation, assignLoop, decodeRow, List.find?, pyRound_one, dictInsert,
      armBot, transportSkill, show List.range 1 = [0] from rfl]

/-- C1 (amended): for every feasible solver solution, the decoded
Assignment pairs each robot name with at most one skill and each frontier
skill with at most one robot (decoded columns are injective across rows),
and every selected pair has weight at least 0; but the decoder does not
filter on weight, so a zero-weight (incompatible) pair can be selected
when the solver's optimal solution contains one (see the
counterexample). -/
theorem C1_assignment_feasibility (robots : List Robot) (skills : List String)
    (cost : Nat → Nat → ℚ) (x : Nat → Nat → ℚ)
    (hc : ∀ r s, 0 ≤ cost r s)
    (hx : Feasible robots.length skills.length x) :
    ((solve_task_allocation robots skills (some x)).map Prod.fst).Nodup ∧
    (∀ r1 r2 s, r1 < robots.length → r2 < robots.length →
        decodeRow x skills.length r1 = some s → decodeRow x skills.length r2 = some s →
        r1 = r2) ∧
    (skills.Nodup → ((solve_task_allocation robots skills (some x)).map Prod.snd).Nodup) ∧
    (∀ p ∈ solve_task_allocation robots skills (some x), ∃ r s, r < robots.length ∧
        s < skills.length ∧ decodeRow x skills.length r = some s ∧
        p = ((robots[r]?.getD ⟨"", ""⟩).name, skills[s]?.getD "") ∧
        0 ≤ calculate_weights robots skills cost r s) := by
  have hkeys : ((solve_task_allocation robots skills (some x)).map Prod.fst).Nodup := by
    unfold solve_task_allocation
    by_cases hlen : skills.length = 0
    · simp [hlen]
    · simp only [hlen, if_neg, if_false]
      exact assignLoop_keys_nodup robots skills x _ [] (by simp)
  have hinj := decode_col_injective robots.length skills.length x hx
  refine ⟨hkeys, fun r1 r2 s h1 h2 hd1 hd2 => hinj r1 r2 s h1 h2 hd1 hd2, ?_, ?_⟩
  · intro hsk
    have hA : (solve_task_allocation robots skills (some x)).Nodup :=
      List.Nodup.of_map _ hkeys
    apply List.Nodup.map_on ?_ hA
    intro p1 hp1 p2 hp2 heq
    obtain ⟨r1, s1, hr1, hs1, hd1, hpe1⟩ := mem_solve_task_allocation robots skills x p1 hp1
    obtain ⟨r2, s2, hr2, hs2, hd2, hpe2⟩ := mem_solve_task_allocation robots skills x p2 hp2
    have hsk1 : skills[s1]?.getD "" = skills.get ⟨s1, hs1⟩ := by
      rw [List.getElem?_eq_getElem hs1]
      rfl
    have hsk2 : skills[s2]?.getD "" = skills.get ⟨s2, hs2⟩ := by
      rw [List.getElem?_eq_getElem hs2]
      rfl
    have heq2 : skills.get ⟨s1, hs1⟩ = skills.get ⟨s2, hs2⟩ := by
      rw [← hsk1, ← hsk2]
      rw [hpe1, hpe2] at heq
      exact heq
    have hs12 : s1 = s2 := by
      have h3 := (List.Nodup.get_inj_iff hsk).mp heq2
      exact congrArg Fin.val h3
    subst hs12
    have hr12 : r1 = r2 := hinj r1 r2 s1 hr1 hr2 hd1 hd2
    subst hr12
    rw [hpe1, hpe2]
  · intro p hp
    obtain ⟨r, s, hr, hs, hd, hpe⟩ := mem_solve_task_allocation robots skills x p hp
    exact ⟨r, s, hr, hs, hd, hpe, calculate_weights_nonneg robots skills cost hc r s⟩

/-- Witness for C1 at one arm robot and one compatible skill with the
all-ones feasible solution: the decoded assignment has duplicate-free
robot names and duplicate-free skills. -/
theorem C1_assignment_feasibility_witness :
    ((solve_task_allocation [armBot] [pickSkill] (some (fun _ _ => 1))).map Prod.fst).Nodup ∧
    ((solve_task_allocation [armBot] [pickSkill] (some (fun _ _ => 1))).map Prod.snd).Nodup := by
  have h := C1_assignment_feasibility [armBot] [pickSkill] (fun _ _ => 0) (fun _ _ => 1)
    (fun _ _ => le_refl 0) feasible_ones_one_one
  exact ⟨h.1, h.2.2.1 (by simp)⟩

/-- C4 counterexample: on a non-empty graph whose frontier is empty (a
2-cycle), the run prints the integrity error, breaks out of the loop —
and then still prints the "Planning Complete!" banner, with the same
return value (`None`) as a successful run: abort and complete are
conflated in the user-visible output. -/
theorem C4_cex :
    driverPhase [] (fun _ _ => none) cycleGraph 3 0 = ⟨none, false, false, true, true, false⟩ ∧
    (⟨none, false, false, true, true, false⟩ : PlannerOutput).printedCompleteBanner = true := by
  exact ⟨rfl, rfl⟩

/-- C4 (amended): a non-empty graph with an empty frontier does make the
Driver print the integrity-error message and stop the loop, but the
completion banner is then printed unconditionally and the return value is
the same `None` as on a completed run — the code never distinguishes
"plan aborted" from "plan complete" in its return value, only in the
extra printed error line. -/
theorem C4_integrity_conflated (robots : List Robot)
    (sols : Nat → List String → Option (Nat → Nat → ℚ)) (g : Graph) (fuel k : Nat)
    (h1 : g.nodes ≠ []) (h2 : get_executable_skills g = []) (h3 : 0 < fuel) :
    driverPhase robots sols g fuel k = ⟨none, false, false, true, true, false⟩ ∧
    driverPhase robots sols emptyGraph fuel k = ⟨none, false, false, false, true, false⟩ := by
  obtain ⟨m, rfl⟩ : ∃ m, fuel = m + 1 := ⟨fuel - 1, by omega⟩
  have hne : g.nodes.isEmpty = false := by
    cases hn : g.nodes with
    | nil => exact absurd hn h1
    | cons a l => rfl
  constructor
  · unfold driverPhase driverLoop
    rw [hne]
    simp [h2]
  · rfl

/-- Witness for C4 at the concrete 2-cycle graph. -/
theorem C4_integrity_conflated_witness :
    driverPhase [] (fun _ _ => none) cycleGraph 1 0 = ⟨none, false, false, true, true, false⟩ ∧
    driverPhase [] (fun _ _ => none) emptyGraph 1 0 = ⟨none, false, false, false, true, false⟩ :=
  C4_integrity_conflated [] (fun _ _ => none) cycleGraph 1 0 (by decide) (by decide) (by decide)

/-- C5: with a non-empty frontier but an empty assignment (here: one arm
robot facing the one transport skill, no compatible pair, the solver
legitimately returning the optimal all-zero solution) the driver loop
`continue`s with the graph unchanged and never terminates: for every fuel
bound it is still running.  The code has no bounded retry and no abort —
the claim's required behavior; the spec itself records the reference
behavior as a bug. -/
theorem C5_stall_loops_forever :
    get_executable_skills ⟨[transportSkill], []⟩ = [transportSkill] ∧
    solve_task_allocation [armBot] [transportSkill] (some (fun _ _ => 0)) = [] ∧
    OptimalFor 1 1 (calculate_weights [armBot] [transportSkill] (fun _ _ => 0))
      (fun _ _ => 0) ∧
    (∀ fuel k, driverLoop [armBot] (fun _ _ => some (fun _ _ => 0))
        ⟨[transportSkill], []⟩ k fuel = .outOfFuel) := by
  have hsolve : solve_task_allocation [armBot] [transportSkill] (some (fun _ _ => 0)) = [] := by
    simp [solve_task_allocation, assignLoop, decodeRow, List.find?, pyRound_zero,
      show List.range 1 = [0] from rfl]
  have hobj : ∀ y : Nat → Nat → ℚ,
      objective 1 1 (calculate_weights [armBot] [transportSkill] (fun _ _ => 0)) y = 0 := by
    intro y
    unfold objective
    apply Finset.sum_eq_zero
    intro r _
    apply Finset.sum_eq_zero
    intro s _
    rw [weights_arm_transport_zero r s, zero_mul]
  refine ⟨rfl, hsolve, ⟨⟨?_, ?_, ?_⟩, ?_⟩, ?_⟩
  · intro r _
    simp
  · intro s _
    simp
  · intro r s _ _
    norm_num
  · intro y hy
    rw [hobj y, hobj (fun _ _ => 0)]
  · intro fuel
    induction fuel with
    | zero => intro k; rfl
    | succ m ih =>
      intro k
      unfold driverLoop
      simp only [show (⟨[transportSkill], []⟩ : Graph).nodes.isEmpty = false from rfl]
      simp only [show get_executable_skills ⟨[transportSkill], []⟩ = [transportSkill] from rfl]
      simp only [List.isEmpty_cons, hsolve]
      exact ih (k + 1)

/-! ## DAG structure lemmas for the termination claim -/

/-- If `[u, v]` is a sublist of `h :: t`, then `v` lies in `t`. -/
theorem sublist_pair_mem_tail {u v h : String} {t : List String}
    (hs : [u, v].Sublist (h :: t)) : v ∈ t := by
  cases hs with
  | cons _ hs2 => exact hs2.subset (by simp)
  | cons₂ _ hs2 => exact hs2.subset (by simp)

/-- Removing nodes preserves well-formedness. -/
theorem WF_removeNodesFrom (g : Graph) (ns : List String) (h : WF g) :
    WF (removeNodesFrom g ns) := by
  obtain ⟨hnodup, hends⟩ := h
  constructor
  · exact List.Nodup.filter _ hnodup
  · intro e he
    rw [removeNodesFrom] at he
    simp only [List.mem_filter, decide_eq_true_eq] at he
    obtain ⟨hmem, h1, h2⟩ := he
    obtain ⟨hu, hv⟩ := hends e hmem
    constructor <;> simp only [removeNodesFrom, List.mem_filter, decide_eq_true_eq]
    · exact ⟨hu, h1⟩
    · exact ⟨hv, h2⟩

/-- Removing a present node strictly shrinks the node list. -/
theorem removeNodesFrom_length_lt (g : Graph) (ns : List String) (a : String)
    (ha : a ∈ ns) (hg : a ∈ g.nodes) :
    (removeNodesFrom g ns).nodes.length < g.nodes.length := by
  rw [removeNodesFrom]
  rw [List.length_filter_lt_length_iff_exists]
  exact ⟨a, hg, by simp [ha]⟩

/-- A non-empty graph with a topological order has a non-empty frontier:
the order's head has in-degree 0. -/
theorem frontier_nonempty_of_topo (g : Graph) (hWF : WF g) (ht : TopoOrderable g)
    (hne : g.nodes ≠ []) : get_executable_skills g ≠ [] := by
  obtain ⟨ord, hperm, hedges⟩ := ht
  have hord : ord ≠ [] := by
    intro hc
    subst hc
    exact hne (List.Perm.nil_eq hperm).symm
  obtain ⟨h, t, rfl⟩ := List.exists_cons_of_ne_nil hord
  have hnodup : (h :: t).Nodup := hperm.nodup_iff.mpr hWF.1
  have hmem : h ∈ g.nodes := hperm.mem_iff.mp (by simp)
  have hdeg : inDegree g h = 0 := by
    rw [inDegree, List.length_eq_zero]
    by_contra hc
    obtain ⟨e, he⟩ := List.exists_mem_of_ne_nil _ hc
    rw [List.mem_filter] at he
    obtain ⟨hee, hbeq⟩ := he
    have he2 : e.2 = h := by simpa using hbeq
    have hsub := hedges e hee
    rw [he2] at hsub
    have : h ∈ t := sublist_pair_mem_tail hsub
    exact (List.nodup_cons.mp hnodup).1 this
  intro hc
  have : h ∈ get_executable_skills g := (mem_get_executable_skills g h).mpr ⟨hmem, hdeg⟩
  rw [hc] at this
  exact List.not_mem_nil h this

/-- Removing any node set preserves the existence of a topological
order. -/
theorem topo_removeNodesFrom (g : Graph) (ns : List String) (ht : TopoOrderable g) :
    TopoOrderable (removeNodesFrom g ns) := by
  obtain ⟨ord, hperm, hedges⟩ := ht
  refine ⟨ord.filter (fun n => decide (¬ n ∈ ns)), ?_, ?_⟩
  · exact List.Perm.filter _ hperm
  · intro e he
    rw [removeNodesFrom] at he
    simp only [List.mem_filter, decide_eq_true_eq] at he
    obtain ⟨hmem, h1, h2⟩ := he
    have hsub := (hedges e hmem).filter (fun n => decide (¬ n ∈ ns))
    have hpair : [e.1, e.2].filter (fun n => decide (¬ n ∈ ns)) = [e.1, e.2] := by
      simp [h1, h2]
    rw [hpair] at hsub
    exact hsub

/-- A graph accepted by the code's Kahn-style acyclicity check admits a
topological order: peel the frontier at each level. -/
theorem kahn_to_topo : ∀ fuel (g : Graph), WF g → kahnElim fuel g = true → TopoOrderable g := by
  intro fuel
  induction fuel with
  | zero =>
    intro g hWF h
    rw [kahnElim] at h
    have hnil : g.nodes = [] := List.isEmpty_iff.mp h
    refine ⟨[], by rw [hnil], ?_⟩
    intro e he
    exact absurd ((hWF.2 e he).1) (by rw [hnil]; exact List.not_mem_nil _)
  | succ n ih =>
    intro g hWF h
    rw [kahnElim] at h
    by_cases hempty : g.nodes.isEmpty
    · have hnil : g.nodes = [] := List.isEmpty_iff.mp hempty
      refine ⟨[], by rw [hnil], ?_⟩
      intro e he
      exact absurd ((hWF.2 e he).1) (by rw [hnil]; exact List.not_mem_nil _)
    · rw [if_neg hempty] at h
      by_cases hfe : (get_executable_skills g).isEmpty
      · rw [if_pos hfe] at h
        exact absurd h (by simp)
      · rw [if_neg hfe] at h
        have hWF2 := WF_removeNodesFrom g (get_executable_skills g) hWF
        obtain ⟨ord2, hperm2, hedges2⟩ := ih (removeNodesFrom g (get_executable_skills g)) hWF2 h
        refine ⟨get_executable_skills g ++ ord2, ?_, ?_⟩
        · -- frontier ++ rest is a permutation of all nodes
          have hfil : g.nodes.filter (fun n => decide (n ∈ get_executable_skills g)) =
              get_executable_skills g := by
            rw [get_executable_skills]
            apply List.filter_congr
            intro n hn
            rw [Bool.eq_iff_iff, decide_eq_true_eq]
            simp [List.mem_filter, hn]
          have hsplit := List.filter_append_perm
            (fun n => decide (n ∈ get_executable_skills g)) g.nodes
          rw [hfil] at hsplit
          have hrest : g.nodes.filter (fun x => !decide (x ∈ get_executable_skills g)) =
              (removeNodesFrom g (get_executable_skills g)).nodes := by
            rw [removeNodesFrom]
            apply List.filter_congr
            intro n _
            simp
          rw [hrest] at hsplit
          exact ((hperm2.append_left (get_executable_skills g)).trans hsplit)
        · intro e he
          have hv : e.2 ∉ get_executable_skills g := by
            intro hc
            have hdeg := ((mem_get_executable_skills g e.2).mp hc).2
            rw [inDegree, List.length_eq_zero] at hdeg
            have : e ∈ g.edges.filter (fun e2 => e2.2 == e.2) :=
              List.mem_filter.mpr ⟨he, by simp⟩
            rw [hdeg] at this
            exact List.not_mem_nil e this
          by_cases hu : e.1 ∈ get_executable_skills g
          · have h1 : [e.1].Sublist (get_executable_skills g) :=
              List.singleton_sublist.mpr hu
            have h2 : [e.2].Sublist ord2 := by
              rw [List.singleton_sublist]
              apply hperm2.mem_iff.mpr
              rw [removeNodesFrom]
              simp only [List.mem_filter, decide_eq_true_eq]
              exact ⟨(hWF.2 e he).2, hv⟩
            exact h1.append h2
          · have he2 : e ∈ (removeNodesFrom g (get_executable_skills g)).edges := by
              rw [removeNodesFrom]
              simp only [List.mem_filter, decide_eq_true_eq]
              exact ⟨he, hu, hv⟩
            exact (hedges2 e he2).trans (List.sublist_append_right _ _)

/-! ## Solver-contract lemmas for the termination claim -/

/-- A compatible robot 0 / skill 0 pair gets a strictly positive weight. -/
theorem calculate_weights_pos (robots : List Robot) (skills : List String)
    (cost : Nat → Nat → ℚ) (robot : Robot) (skill : String)
    (hr : robots[0]? = some robot) (hs : skills[0]? = some skill)
    (hcomp : compatible robot skill = true) (hc : 0 ≤ cost 0 0) :
    0 < calculate_weights robots skills cost 0 0 := by
  have hpos : (0 : ℚ) < cost 0 0 + 1 / 1000000 := by positivity
  unfold compatible at hcomp
  rw [Bool.or_eq_true, Bool.and_eq_true, Bool.and_eq_true] at hcomp
  unfold calculate_weights
  simp only [hr, hs]
  rcases hcomp with ⟨h1, h2⟩ | ⟨h1, h2⟩
  · rw [if_pos ⟨eq_of_beq h1, h2⟩]
    positivity
  · have hne : ¬ (robot.type = "arm_robot" ∧ strContains skill "pick_and_place" = true) := by
      rw [eq_of_beq h1]
      simp
    rw [if_neg hne, if_pos ⟨eq_of_beq h1, h2⟩]
    positivity

/-- The single-assignment matrix putting robot 0 on skill 0 is feasible. -/
theorem feasible_single (R S : Nat) (hR : 0 < R) (hS : 0 < S) :
    Feasible R S (fun r s => if r = 0 ∧ s = 0 then 1 else 0) := by
  refine ⟨?_, ?_, ?_⟩
  · intro r _
    by_cases hr : r = 0
    · subst hr
      simp only [true_and]
      rw [Finset.sum_ite_eq' (Finset.range S) 0 (fun _ => (1 : ℚ))]
      simp [Finset.mem_range, hS]
    · rw [Finset.sum_eq_zero (fun s _ => by simp [hr])]
      norm_num
  · intro s _
    by_cases hs : s = 0
    · subst hs
      have hrw : ∀ r : Nat, (if r = 0 ∧ 0 = 0 then (1 : ℚ) else 0) = if r = 0 then 1 else 0 := by
        intro r
        simp
      rw [Finset.sum_congr rfl (fun r _ => hrw r)]
      rw [Finset.sum_ite_eq' (Finset.range R) 0 (fun _ => (1 : ℚ))]
      simp [Finset.mem_range, hR]
    · rw [Finset.sum_eq_zero (fun r _ => by simp [hs])]
      norm_num
  · intro r s _ _
    by_cases h : r = 0 ∧ s = 0 <;> simp [h]

/-- Objective value of the single robot-0-on-skill-0 assignment. -/
theorem objective_single (R S : Nat) (w : Nat → Nat → ℚ) (hR : 0 < R) (hS : 0 < S) :
    objective R S w (fun r s => if r = 0 ∧ s = 0 then 1 else 0) = w 0 0 := by
  unfold objective
  rw [Finset.sum_eq_single_of_mem 0 (Finset.mem_range.mpr hR)]
  · have hrw : ∀ s : Nat, w 0 s * (if 0 = 0 ∧ s = 0 then (1 : ℚ) else 0) =
        if s = 0 then w 0 s else 0 := by
      intro s
      by_cases hs : s = 0 <;> simp [hs]
    rw [Finset.sum_congr rfl (fun s _ => hrw s)]
    rw [Finset.sum_ite_eq' (Finset.range S) 0 (fun s => w 0 s)]
    simp [Finset.mem_range, hS]
  · intro b _ hb
    apply Finset.sum_eq_zero
    intro s _
    simp [hb]

/-- An optimal integral solution against a weight matrix with positive
entry `(0, 0)` selects some entry: its objective is at least `w 0 0 > 0`,
so not all variables are 0. -/
theorem optimal_integral_selects (R S : Nat) (w x : Nat → Nat → ℚ)
    (hR : 0 < R) (hS : 0 < S)
    (hint : Integral R S x)
    (hopt : OptimalFor R S w x)
    (hw0 : 0 < w 0 0) :
    ∃ r s, r < R ∧ s < S ∧ x r s = 1 := by
  by_contra hc
  push_neg at hc
  have hzero : ∀ r ∈ Finset.range R, ∀ s ∈ Finset.range S, w r s * x r s = 0 := by
    intro r hr s hs
    rcases hint r s (Finset.mem_range.mp hr) (Finset.mem_range.mp hs) with h0 | h1
    · rw [h0, mul_zero]
    · exact absurd h1 (hc r s (Finset.mem_range.mp hr) (Finset.mem_range.mp hs))
  have hobjx : objective R S w x = 0 := by
    unfold objective
    exact Finset.sum_eq_zero (fun r hr => Finset.sum_eq_zero (fun s hs => hzero r hr s hs))
  have hge := hopt.2 _ (feasible_single R S hR hS)
  rw [objective_single R S w hR hS, hobjx] at hge
  linarith

/-- Under the solver contract (feasible, integral, optimal) and a
compatible robot-0/skill-0 pair, the decoded assignment is non-empty. -/
theorem solve_task_allocation_ne_nil (robots : List Robot) (skills : List String)
    (cost : Nat → Nat → ℚ) (x : Nat → Nat → ℚ)
    (hR : robots ≠ []) (hS : skills ≠ [])
    (hint : Integral robots.length skills.length x)
    (hopt : OptimalFor robots.length skills.length (calculate_weights robots skills cost) x)
    (hw0 : 0 < calculate_weights robots skills cost 0 0) :
    solve_task_allocation robots skills (some x) ≠ [] := by
  have hRlen : 0 < robots.length := List.length_pos.mpr hR
  have hSlen : 0 < skills.length := List.length_pos.mpr hS
  obtain ⟨r, s, hr, hs, hx1⟩ :=
    optimal_integral_selects robots.length skills.length _ x hRlen hSlen hint hopt hw0
  unfold solve_task_allocation
  rw [if_neg (by omega)]
  apply assignLoop_ne_nil
  right
  refine ⟨r, List.mem_range.mpr hr, ?_⟩
  apply decodeRow_isSome x skills.length r s hs
  rw [hx1]
  exact pyRound_one

/-- Every assigned skill of a solve over the frontier list is a member of
that frontier list. -/
theorem solve_snd_mem (robots : List Robot) (skills : List String) (x : Nat → Nat → ℚ)
    (p : String × String) (hp : p ∈ solve_task_allocation robots skills (some x)) :
    p.2 ∈ skills := by
  obtain ⟨r, s, _, hs, _, hpe⟩ := mem_solve_task_allocation robots skills x p hp
  rw [hpe]
  simp only []
  rw [List.getElem?_eq_getElem hs]
  exact List.getElem_mem hs

/-- Unfolding equation of one driver round. -/
theorem driverLoop_succ (robots : List Robot)
    (sols : Nat → List String → Option (Nat → Nat → ℚ)) (g : Graph) (k f : Nat) :
    driverLoop robots sols g k (f + 1) =
      if g.nodes.isEmpty then .complete
      else
        if (get_executable_skills g).isEmpty then .integrityBreak
        else
          if ((solve_task_allocation robots (get_executable_skills g)
              (sols k (get_executable_skills g))).map Prod.snd).isEmpty then
            driverLoop robots sols g (k + 1) f
          else
            driverLoop robots sols
              (removeNodesFrom g ((solve_task_allocation robots (get_executable_skills g)
                (sols k (get_executable_skills g))).map Prod.snd)) (k + 1) f := rfl

/-- The driver loop reaches `Complete` within as many rounds as there are
nodes, whenever the graph is a well-formed DAG over nodes all compatible
with every robot and the per-round LP solutions obey the solver contract
(feasible, integral, optimal for that round's weight matrix). -/
theorem driver_reaches_complete (robots : List Robot)
    (sols : Nat → List String → Option (Nat → Nat → ℚ)) (costs : Nat → Nat → Nat → ℚ)
    (N0 : List String) (hR : robots ≠ [])
    (hcompat : ∀ robot ∈ robots, ∀ m ∈ N0, compatible robot m = true)
    (hcost : ∀ k r s, 0 ≤ costs k r s)
    (hsols : ∀ k skills, skills ≠ [] → skills.Nodup → (∀ s ∈ skills, s ∈ N0) →
        ∃ x, sols k skills = some x ∧ Feasible robots.length skills.length x ∧
          Integral robots.length skills.length x ∧
          OptimalFor robots.length skills.length
            (calculate_weights robots skills (costs k)) x) :
    ∀ n (g : Graph) (k fuel : Nat), g.nodes.length ≤ n → WF g → TopoOrderable g →
      (∀ m ∈ g.nodes, m ∈ N0) → n < fuel →
      driverLoop robots sols g k fuel = .complete := by
  intro n
  induction n with
  | zero =>
    intro g k fuel hlen hWF htopo hsub hfuel
    obtain ⟨f, rfl⟩ : ∃ f, fuel = f + 1 := ⟨fuel - 1, by omega⟩
    have hnil : g.nodes.isEmpty = true := by
      rw [List.isEmpty_iff]
      exact List.length_eq_zero.mp (by omega)
    rw [driverLoop_succ, if_pos hnil]
  | succ m ih =>
    intro g k fuel hlen hWF htopo hsub hfuel
    obtain ⟨f, rfl⟩ : ∃ f, fuel = f + 1 := ⟨fuel - 1, by omega⟩
    by_cases hempty : g.nodes.isEmpty
    · rw [driverLoop_succ, if_pos hempty]
    · have hne : g.nodes ≠ [] := by
        rw [Bool.not_eq_true, List.isEmpty_eq_false] at hempty
        exact hempty
      have hfe : get_executable_skills g ≠ [] := frontier_nonempty_of_topo g hWF htopo hne
      have hexsub : ∀ s ∈ get_executable_skills g, s ∈ N0 :=
        fun s hs => hsub s ((mem_get_executable_skills g s).mp hs).1
      obtain ⟨x, hsx, hfeas, hint, hopt⟩ := hsols k (get_executable_skills g) hfe
        (List.Nodup.filter _ hWF.1) hexsub
      obtain ⟨robot0, robotsTail, rfl⟩ := List.exists_cons_of_ne_nil hR
      obtain ⟨skill0, exTail, hex⟩ := List.exists_cons_of_ne_nil hfe
      have hw0 : 0 < calculate_weights (robot0 :: robotsTail) (get_executable_skills g)
          (costs k) 0 0 := by
        apply calculate_weights_pos _ _ _ robot0 skill0 (by simp) (by rw [hex]; simp)
        · exact hcompat robot0 (List.mem_cons_self _ _) skill0
            (hexsub skill0 (by rw [hex]; exact List.mem_cons_self _ _))
        · exact hcost k 0 0
      have hanne : solve_task_allocation (robot0 :: robotsTail) (get_executable_skills g)
          (some x) ≠ [] :=
        solve_task_allocation_ne_nil _ _ (costs k) x (by simp) hfe hint hopt hw0
      rw [driverLoop_succ, if_neg hempty,
        if_neg (by rw [Bool.not_eq_true, List.isEmpty_eq_false]; exact hfe), hsx,
        if_neg (by
          rw [Bool.not_eq_true, List.isEmpty_eq_false]
          intro hc
          exact hanne (List.map_eq_nil_iff.mp hc))]
      obtain ⟨p, hp⟩ := List.exists_mem_of_ne_nil _ hanne
      have hp2ex : p.2 ∈ get_executable_skills g := solve_snd_mem _ _ x p hp
      have hp2g : p.2 ∈ g.nodes := ((mem_get_executable_skills g p.2).mp hp2ex).1
      have hp2c : p.2 ∈ (solve_task_allocation (robot0 :: robotsTail)
          (get_executable_skills g) (some x)).map Prod.snd :=
        List.mem_map.mpr ⟨p, hp, rfl⟩
      apply ih
      · have := removeNodesFrom_length_lt g _ p.2 hp2c hp2g
        omega
      · exact WF_removeNodesFrom g _ hWF
      · exact topo_removeNodesFrom g _ htopo
      · intro q hq
        rw [removeNodesFrom] at hq
        rw [List.mem_filter] at hq
        exact hsub q hq.1
      · omega

/-- A non-empty duplicate-free list whose members all lie in `[a]` is
`[a]`. -/
theorem eq_singleton_of_nodup_subset (skills : List String) (a : String)
    (hne : skills ≠ []) (hnd : skills.Nodup) (hsub : ∀ s ∈ skills, s ∈ [a]) :
    skills = [a] := by
  cases skills with
  | nil => exact absurd rfl hne
  | cons b t =>
    have hb : b = a := by simpa using hsub b (List.mem_cons_self _ _)
    subst hb
    cases t with
    | nil => rfl
    | cons c u =>
      have hc : c = b := by simpa using hsub c (by simp)
      rw [List.nodup_cons] at hnd
      exact absurd (by rw [hc.symm]; exact List.mem_cons_self _ _) hnd.1

/-- On a 1×1 problem with non-negative weight, the single-assignment
matrix is optimal. -/
theorem optimal_single_one_one (w : Nat → Nat → ℚ) (hw : 0 ≤ w 0 0) :
    OptimalFor 1 1 w (fun r s => if r = 0 ∧ s = 0 then 1 else 0) := by
  constructor
  · exact feasible_single 1 1 one_pos one_pos
  · intro y hy
    rw [objective_single 1 1 w one_pos one_pos]
    unfold objective
    rw [Finset.sum_range_one, Finset.sum_range_one]
    exact mul_le_of_le_one_right hw (hy.2.2 0 0 one_pos one_pos).2

/-- C7: on a well-formed graph accepted by the acyclicity check, with at
least one robot, every robot compatible with every node (so every
robot-skill weight is positive), and per-round LP solutions obeying the
solver contract — feasible, integral on the matrix shape, and optimal for
that round's weight matrix — the driver loop reaches `Complete` within at
most N rounds for an N-node graph: fuel `N + 1` (or any larger bound)
suffices, each productive round removing at least one node. -/
theorem C7_termination (robots : List Robot)
    (sols : Nat → List String → Option (Nat → Nat → ℚ)) (costs : Nat → Nat → Nat → ℚ)
    (g : Graph) (k fuel : Nat)
    (hWF : WF g) (hdag : is_directed_acyclic_graph g = true) (hR : robots ≠ [])
    (hcompat : ∀ robot ∈ robots, ∀ m ∈ g.nodes, compatible robot m = true)
    (hcost : ∀ j r s, 0 ≤ costs j r s)
    (hsols : ∀ j skills, skills ≠ [] → skills.Nodup → (∀ s ∈ skills, s ∈ g.nodes) →
        ∃ x, sols j skills = some x ∧ Feasible robots.length skills.length x ∧
          Integral robots.length skills.length x ∧
          OptimalFor robots.length skills.length
            (calculate_weights robots skills (costs j)) x)
    (hfuel : g.nodes.length < fuel) :
    driverLoop robots sols g k fuel = .complete :=
  driver_reaches_complete robots sols costs g.nodes hR hcompat hcost hsols
    g.nodes.length g k fuel (le_refl _) hWF (kahn_to_topo g.nodes.length g hWF hdag)
    (fun _ hm => hm) hfuel

/-- Witness for C7: one arm robot against the singleton DAG holding one
`pick_and_place` skill, with the solver answering the single assignment;
the loop completes within fuel 2 = N + 1. -/
theorem C7_termination_witness :
    driverLoop [armBot]
        (fun _ _ => some (fun r s => if r = 0 ∧ s = 0 then (1 : ℚ) else 0))
        ⟨[pickSkill], []⟩ 0 2 = .complete := by
  apply C7_termination [armBot] _ (fun _ _ _ => 0) ⟨[pickSkill], []⟩ 0 2
  · constructor
    · simp
    · intro e he
      simp at he
  · rfl
  · simp
  · intro robot hrobot m hm
    simp only [List.mem_singleton] at hrobot hm
    subst hrobot
    subst hm
    decide
  · intro j r s
    exact le_refl 0
  · intro j skills hne hnd hsub
    rw [eq_singleton_of_nodup_subset skills pickSkill hne hnd hsub]
    refine ⟨_, rfl, feasible_single 1 1 one_pos one_pos, ?_, ?_⟩
    · intro r s hr hs
      simp only [List.length_singleton] at hr hs
      have hr0 : r = 0 := by omega
      have hs0 : s = 0 := by omega
      subst hr0
      subst hs0
      simp
    · apply optimal_single_one_one
      exact calculate_weights_nonneg [armBot] [pickSkill] (fun _ _ => 0)
        (fun _ _ => le_refl 0) 0 0
  · simp

end LPnDG
